import Mathlib

/-!
Shallow embedding of the workout selection engine of `workoutdistributor`
(`src/workoutdistributor/__main__.py`), together with proofs of the spec's
claims about it.

Time is modelled by integers: a `datetime` becomes an `Instant` carrying the
absolute value of its date-at-midnight (`midnight`), the offset since that
midnight (`sinceMidnight`), and its weekday; a `timedelta` becomes an `Int`.
Comparison and subtraction of datetimes act on the absolute value
`midnight + sinceMidnight`.

The `random` module is modelled by an `Rng` structure whose `shuffle` fields
may be any permutation-producing functions and whose `randint` field returns
a value inside the inclusive bounds whenever the bounds are ordered - the
documented contract of `random.shuffle` and `random.randint`.
-/

namespace WD

/-- A timezone-aware datetime: `midnight` is the absolute time of
`datetime(now.year, now.month, now.day, tzinfo=now.tzinfo)`, `sinceMidnight`
the offset of the instant past that midnight, `weekday` the value of
`now.weekday()`. -/
structure Instant where
  midnight : Int
  sinceMidnight : Int
  weekday : Nat
deriving DecidableEq

/-- The absolute time of the instant, used for datetime comparison and
subtraction. -/
def Instant.val (t : Instant) : Int := t.midnight + t.sinceMidnight

/-- `GoalPeriod` ORM class: a rolling goal window. -/
structure GoalPeriod where
  period : Int
  reps_per_period : Int
  sets_per_period : Int
deriving DecidableEq

/-- `Exercise` ORM class (the descriptive text columns are irrelevant to the
engine and omitted; `id` stands for object identity). -/
structure Exercise where
  id : Nat
  minimum_reps : Int
  maximum_reps : Int
  minimum_sets : Int
  maximum_sets : Int
  minimum_timedelta_between : Int
  maximum_timedelta_between : Int
  goals : List GoalPeriod
deriving DecidableEq

/-- `WorkoutPeriod` ORM class. `end` is a Lean keyword, hence `end_`. -/
structure WorkoutPeriod where
  day_of_week : Nat
  start : Int
  end_ : Int
deriving DecidableEq

/-- `WorkoutPeriod.is_in`: `d = datetime(now.year, now.month, now.day,
tzinfo=now.tzinfo); start = d + self.start; end = d + self.end;
return start <= now <= end`. -/
def WorkoutPeriod.is_in (p : WorkoutPeriod) (now : Instant) : Bool :=
  decide (p.start + now.midnight ≤ now.val ∧ now.val ≤ p.end_ + now.midnight)

/-- `WorkoutPlan` ORM class (name and zone data omitted). -/
structure WorkoutPlan where
  exercises : List Exercise
  periods : List WorkoutPeriod
deriving DecidableEq

/-- `Action` ORM class. -/
structure Action where
  time : Instant
  reps : Int
  sets : Int
  exercise : Exercise
deriving DecidableEq

/-- The non-time payload of an action (exercise reference plus the chosen
reps and sets counts). -/
structure ActionPayload where
  reps : Int
  sets : Int
  exercise : Exercise
deriving DecidableEq

/-- Forget the timestamp of an action. -/
def Action.payload (a : Action) : ActionPayload :=
  { reps := a.reps, sets := a.sets, exercise := a.exercise }

/-- Model of the `random` module: arbitrary draws constrained only by the
documented contract of `random.shuffle` (an in-place permutation, here a
permutation-producing function) and `random.randint` (inclusive bounds). -/
structure Rng where
  randint : Int → Int → Int
  randint_le_left : ∀ lo hi : Int, lo ≤ hi → lo ≤ randint lo hi
  randint_le_right : ∀ lo hi : Int, lo ≤ hi → randint lo hi ≤ hi
  shuffleEx : List Exercise → List Exercise
  shuffleEx_perm : ∀ l : List Exercise, (shuffleEx l).Perm l
  shuffleAct : List Action → List Action
  shuffleAct_perm : ∀ l : List Action, (shuffleAct l).Perm l

/-- `Workout` engine state: the borrowed plan and the owned action history. -/
structure Workout where
  workout_plan : WorkoutPlan
  actions : List Action
deriving DecidableEq

/-- A scan returning `False` as soon as some element satisfies `p`, `True`
when none does: the common shape of the loops of `is_exercise_available` and
`been_too_long`. -/
def loopNoMatch (p : Action → Prop) [DecidablePred p] : List Action → Bool
  | [] => true
  | a :: rest => if p a then false else loopNoMatch p rest

/-- `Workout.is_exercise_available`: iterate `reversed(self.actions)`; for an
action of this exercise with `now - action.time <
exercise.minimum_timedelta_between`, return `False`; else return `True`. -/
def Workout.is_exercise_available (w : Workout) (now : Instant) (e : Exercise) : Bool :=
  loopNoMatch
    (fun a => a.exercise = e ∧ now.val - a.time.val < e.minimum_timedelta_between)
    w.actions.reverse

/-- The inner accumulation loop of `Workout.has_unmet_goals`: running reps
and sets over actions of the exercise not earlier than `earliest`. -/
def goalSumsAux (e : Exercise) (earliest : Int) : Int → Int → List Action → Int × Int
  | rr, ss, [] => (rr, ss)
  | rr, ss, a :: rest =>
    if a.exercise ≠ e then goalSumsAux e earliest rr ss rest
    else if a.time.val < earliest then goalSumsAux e earliest rr ss rest
    else goalSumsAux e earliest (rr + a.reps) (ss + a.sets) rest

/-- `Workout.has_unmet_goals`: for each goal, sum reps and sets of the
exercise's actions since `now - goal.period`; return `True` at the first
goal with `running_reps < goal.reps_per_period and running_sets <=
goal.sets_per_period`. -/
def Workout.has_unmet_goals (w : Workout) (now : Instant) (e : Exercise) : Bool :=
  e.goals.any (fun g =>
    let earliest_goal_time := now.val - g.period
    let rs := goalSumsAux e earliest_goal_time 0 0 w.actions
    decide (rs.1 < g.reps_per_period ∧ rs.2 ≤ g.sets_per_period))

/-- `Workout.been_too_long`: `minimum_longest_time = now -
exercise.maximum_timedelta_between`; return `False` at an action of the
exercise with `action.time >= minimum_longest_time`, else `True`. -/
def Workout.been_too_long (w : Workout) (now : Instant) (e : Exercise) : Bool :=
  loopNoMatch
    (fun a => a.exercise = e ∧ now.val - e.maximum_timedelta_between ≤ a.time.val)
    w.actions

/-- `Workout._do_exercise_action`: synthesize the action (reps and sets by
`random.randint` on the exercise's inclusive ranges, time `now`), append it
to the history, return it. -/
def Workout._do_exercise_action (rng : Rng) (w : Workout) (now : Instant) (e : Exercise) :
    Workout × Action :=
  let a : Action :=
    { time := now,
      reps := rng.randint e.minimum_reps e.maximum_reps,
      sets := rng.randint e.minimum_sets e.maximum_sets,
      exercise := e }
  ({ w with actions := w.actions ++ [a] }, a)

/-- The `out_of_working_hours` flag loop of `pick_action_for`: start at
`True`, set to `False` at every period matching `now`'s weekday that
contains `now`. -/
def Workout.out_of_working_hours (w : Workout) (now : Instant) : Bool :=
  w.workout_plan.periods.foldl
    (fun acc p => if p.day_of_week = now.weekday ∧ p.is_in now then false else acc)
    true

/-- `available` as computed by `pick_action_for`. -/
def Workout.availableList (w : Workout) (now : Instant) : List Exercise :=
  w.workout_plan.exercises.filter (fun e => w.is_exercise_available now e)

/-- `unmet` as computed by `pick_action_for`. -/
def Workout.unmetList (w : Workout) (now : Instant) : List Exercise :=
  (w.availableList now).filter (fun e => w.has_unmet_goals now e)

/-- `passed_max` as computed by `pick_action_for`. -/
def Workout.passedMaxList (w : Workout) (now : Instant) : List Exercise :=
  (w.availableList now).filter (fun e => w.been_too_long now e)

/-- `Workout.pick_action_for`: the tier cascade. The original mutates
`self`; here the updated engine state is returned beside the optional
action. `random.shuffle(l)` followed by `l[0]` becomes matching on
`rng.shuffleEx l` (the empty match arms are unreachable: a permutation of a
non-empty list is non-empty). -/
def Workout.pick_action_for (rng : Rng) (w : Workout) (now : Instant) :
    Workout × Option Action :=
  if w.out_of_working_hours now then (w, none)
  else
    let available := w.availableList now
    if 0 = available.length then (w, none)
    else
      let unmet := w.unmetList now
      if 0 ≠ unmet.length then
        match rng.shuffleEx unmet with
        | [] => (w, none)
        | e :: _ =>
          let p := w._do_exercise_action rng now e
          (p.1, some p.2)
      else
        let passed_max := w.passedMaxList now
        if 0 ≠ passed_max.length then
          match rng.shuffleEx passed_max with
          | [] => (w, none)
          | e :: _ =>
            let p := w._do_exercise_action rng now e
            (p.1, some p.2)
        else
          match rng.shuffleEx available with
          | [] => (w, none)
          | e :: _ =>
            let p := w._do_exercise_action rng now e
            (p.1, some p.2)

/-- Running reps as described by the spec: the sum of `reps` over all
history actions of the exercise with `time >= earliest`. -/
def specRunningReps (actions : List Action) (e : Exercise) (earliest : Int) : Int :=
  ((actions.filter (fun a => decide (a.exercise = e ∧ earliest ≤ a.time.val))).map
    Action.reps).sum

/-- Running sets as described by the spec: the sum of `sets` over all
history actions of the exercise with `time >= earliest`. -/
def specRunningSets (actions : List Action) (e : Exercise) (earliest : Int) : Int :=
  ((actions.filter (fun a => decide (a.exercise = e ∧ earliest ≤ a.time.val))).map
    Action.sets).sum

/-- Modelled from the spec's cascade description: the first non-empty tier
(goal-deficient, else stale, else all available). -/
def specFirstTier (w : Workout) (now : Instant) : List Exercise :=
  if w.unmetList now ≠ [] then w.unmetList now
  else if w.passedMaxList now ≠ [] then w.passedMaxList now
  else w.availableList now

/-- The cooldown invariant: successive actions of one exercise are at least
its `minimum_timedelta_between` apart. -/
def cooldownOK (l : List Action) : Prop :=
  ∀ e : Exercise,
    List.Chain' (fun a b => e.minimum_timedelta_between ≤ b.time.val - a.time.val)
      (l.filter (fun a => decide (a.exercise = e)))

/-- The most recent history action of an exercise (histories are stored in
append order, so the last matching entry). -/
def lastActionFor (actions : List Action) (e : Exercise) : Option Action :=
  (actions.filter (fun a => decide (a.exercise = e))).getLast?

/-- `shuffle_but_keep_time`: record the time of each position, shuffle the
actions, then write the recorded time of each position back onto whatever
action now sits there. -/
def shuffle_but_keep_time (sh : List Action → List Action) (actions : List Action) :
    List Action :=
  let originals := actions.map (fun a => a.time)
  let shuffled := sh actions
  List.zipWith (fun t a => { a with time := t }) originals shuffled

/-- The batching loop of `generate_sample_week_with_day_randomization`:
buffer actions while the weekday stays the same, flush each finished batch
through `shuffle_but_keep_time`, and flush the final non-empty batch at the
end. -/
def dayRandomizationLoop (sh : List Action → List Action) :
    List Action → Nat → List Action → List Action → List Action
  | [], _, day_randomized_actions, this_day_actions =>
    if 0 ≠ this_day_actions.length then
      day_randomized_actions ++ shuffle_but_keep_time sh this_day_actions
    else day_randomized_actions
  | a :: rest, current_day, day_randomized_actions, this_day_actions =>
    if a.time.weekday ≠ current_day then
      dayRandomizationLoop sh rest a.time.weekday
        (day_randomized_actions ++ shuffle_but_keep_time sh this_day_actions) [a]
    else
      dayRandomizationLoop sh rest current_day day_randomized_actions
        (this_day_actions ++ [a])

/-- `generate_sample_week_with_day_randomization`, lines 564-578: the
day-randomization pass over the engine-produced history `workout.actions`
(the preceding generation loop is abstracted into the `actions` argument).
The original indexes `workout.actions[0]`, so an empty history is the
error case `none`. -/
def generate_sample_week_with_day_randomization (rng : Rng) (actions : List Action) :
    Option (List Action) :=
  match actions with
  | [] => none
  | a :: _ => some (dayRandomizationLoop rng.shuffleAct actions a.time.weekday [] [])

/-! Concrete fixtures used by witnesses and counterexamples. -/

/-- A sample exercise in the spirit of the repository's seed data. -/
def ex1 : Exercise :=
  { id := 1, minimum_reps := 5, maximum_reps := 10, minimum_sets := 1, maximum_sets := 2,
    minimum_timedelta_between := 16, maximum_timedelta_between := 48,
    goals := [{ period := 168, reps_per_period := 30, sets_per_period := 3 }] }

/-- A second sample exercise. -/
def ex2 : Exercise :=
  { id := 2, minimum_reps := 1, maximum_reps := 3, minimum_sets := 1, maximum_sets := 1,
    minimum_timedelta_between := 2, maximum_timedelta_between := 4,
    goals := [{ period := 48, reps_per_period := 30, sets_per_period := 3 }] }

/-- A workout period on weekday 0, window 11:00 to 19:00. -/
def period0 : WorkoutPeriod := { day_of_week := 0, start := 11, end_ := 19 }

/-- A sample plan. -/
def plan0 : WorkoutPlan := { exercises := [ex1, ex2], periods := [period0] }

/-- A fresh engine on the sample plan. -/
def w0 : Workout := { workout_plan := plan0, actions := [] }

/-- An instant inside the sample window (weekday 0, hour 12). -/
def now0 : Instant := { midnight := 0, sinceMidnight := 12, weekday := 0 }

/-- The instant exactly at the sample window's end bound. -/
def nowEnd : Instant := { midnight := 0, sinceMidnight := 19, weekday := 0 }

/-- An instant outside the sample window (weekday 0, hour 5). -/
def nowOut : Instant := { midnight := 0, sinceMidnight := 5, weekday := 0 }

/-- A deterministic model random source: identity shuffles, lower-bound
draws. -/
def rng0 : Rng :=
  { randint := fun lo _ => lo,
    randint_le_left := fun _ _ _ => le_refl _,
    randint_le_right := fun _ _ h => h,
    shuffleEx := id,
    shuffleEx_perm := fun l => List.Perm.refl l,
    shuffleAct := id,
    shuffleAct_perm := fun l => List.Perm.refl l }

/-- A model random source whose action shuffle reverses the list (a valid
permutation outcome of `random.shuffle`). -/
def rngRev : Rng :=
  { randint := fun lo _ => lo,
    randint_le_left := fun _ _ _ => le_refl _,
    randint_le_right := fun _ _ h => h,
    shuffleEx := id,
    shuffleEx_perm := fun l => List.Perm.refl l,
    shuffleAct := List.reverse,
    shuffleAct_perm := fun l => List.reverse_perm l }

/-- The action the fresh sample engine produces at `now0` under `rng0`. -/
def a5 : Action := { time := now0, reps := 5, sets := 1, exercise := ex1 }

/-- A recorded action for `ex1` at hour 4 of day 0. -/
def act6 : Action :=
  { time := { midnight := 0, sinceMidnight := 4, weekday := 0 }, reps := 5, sets := 1,
    exercise := ex1 }

/-- An engine whose history holds `act6`. -/
def w6 : Workout := { workout_plan := plan0, actions := [act6] }

/-- An action for `ex1` at hour 12 of a day with weekday 0. -/
def actA : Action := { time := now0, reps := 1, sets := 1, exercise := ex1 }

/-- An action for `ex2` at hour 13 of the same day. -/
def actB : Action :=
  { time := { midnight := 0, sinceMidnight := 13, weekday := 0 }, reps := 2, sets := 1,
    exercise := ex2 }

/-- Engine states reachable from an empty history by decision calls. -/
inductive Reachable : Workout → Prop
  | init (plan : WorkoutPlan) : Reachable { workout_plan := plan, actions := [] }
  | step (w : Workout) (rng : Rng) (now : Instant) :
      Reachable w → Reachable (w.pick_action_for rng now).1

/-! Characterizations of the scanning loops. -/

theorem loopNoMatch_eq_true_iff (p : Action → Prop) [DecidablePred p] (l : List Action) :
    loopNoMatch p l = true ↔ ∀ a ∈ l, ¬ p a := by
  induction l with
  | nil => simp [loopNoMatch]
  | cons a rest ih => by_cases h : p a <;> simp [loopNoMatch, h, ih]

theorem is_exercise_available_eq_true_iff (w : Workout) (now : Instant) (e : Exercise) :
    w.is_exercise_available now e = true ↔
      ∀ a ∈ w.actions, a.exercise = e →
        e.minimum_timedelta_between ≤ now.val - a.time.val := by
  unfold Workout.is_exercise_available
  rw [loopNoMatch_eq_true_iff]
  constructor
  · intro h a ha hae
    have h2 := h a (List.mem_reverse.mpr ha)
    rw [not_and] at h2
    exact le_of_not_lt (h2 hae)
  · intro h a ha
    rw [not_and]
    intro hae
    exact not_lt.mpr (h a (List.mem_reverse.mp ha) hae)

theorem goalSumsAux_eq (e : Exercise) (earliest : Int) :
    ∀ (l : List Action) (rr ss : Int),
      goalSumsAux e earliest rr ss l =
        (rr + specRunningReps l e earliest, ss + specRunningSets l e earliest) := by
  intro l
  induction l with
  | nil => intro rr ss; simp [goalSumsAux, specRunningReps, specRunningSets]
  | cons a rest ih =>
    intro rr ss
    by_cases h1 : a.exercise = e
    · by_cases h2 : a.time.val < earliest
      · have h3 : ¬ earliest ≤ a.time.val := not_le.mpr h2
        simp [goalSumsAux, h1, h2, ih, specRunningReps, specRunningSets,
          List.filter_cons, h3]
      · have h3 : earliest ≤ a.time.val := not_lt.mp h2
        simp [goalSumsAux, h1, h2, ih, specRunningReps, specRunningSets,
          List.filter_cons, h3]
        constructor <;> ring
    · simp [goalSumsAux, h1, ih, specRunningReps, specRunningSets,
        List.filter_cons]

/-- C2: for every exercise, history and instant, the exercise is
goal-deficient exactly when some goal period `g` has
`running_reps < g.reps_per_period` and `running_sets <= g.sets_per_period`,
the running sums ranging over the exercise's actions with
`time >= now - g.period` (strict comparison for reps, non-strict for
sets). -/
theorem c2_goal_deficiency_characterization (w : Workout) (now : Instant) (e : Exercise) :
    w.has_unmet_goals now e = true ↔
      ∃ g ∈ e.goals,
        specRunningReps w.actions e (now.val - g.period) < g.reps_per_period ∧
        specRunningSets w.actions e (now.val - g.period) ≤ g.sets_per_period := by
  unfold Workout.has_unmet_goals
  rw [List.any_eq_true]
  constructor
  · rintro ⟨g, hg, hcond⟩
    refine ⟨g, hg, ?_⟩
    simp only [goalSumsAux_eq, zero_add, decide_eq_true_eq] at hcond
    exact hcond
  · rintro ⟨g, hg, hcond⟩
    refine ⟨g, hg, ?_⟩
    simp only [goalSumsAux_eq, zero_add, decide_eq_true_eq]
    exact hcond

/-- C7: for every exercise, instant and history, `been_too_long` returns
`true` exactly when every history action of the exercise has time strictly
before `now - maximum_timedelta_between` - vacuously true with no prior
actions, false as soon as one action is at or after that floor. -/
theorem c7_staleness_characterization (w : Workout) (now : Instant) (e : Exercise) :
    w.been_too_long now e = true ↔
      ∀ a ∈ w.actions, a.exercise = e →
        a.time.val < now.val - e.maximum_timedelta_between := by
  unfold Workout.been_too_long
  rw [loopNoMatch_eq_true_iff]
  constructor
  · intro h a ha hae
    have h2 := h a ha
    rw [not_and] at h2
    exact not_le.mp (h2 hae)
  · intro h a ha
    rw [not_and]
    intro hae
    exact not_le.mpr (h a ha hae)

/-- C7 witness: an exercise with zero prior actions is stale. -/
theorem c7_witness : w0.been_too_long now0 ex1 = true :=
  (c7_staleness_characterization w0 now0 ex1).mpr (by simp [w0])

theorem out_of_working_hours_foldl (now : Instant) (l : List WorkoutPeriod) (b : Bool) :
    List.foldl
      (fun acc p => if p.day_of_week = now.weekday ∧ p.is_in now then false else acc) b l
      = false ↔
      b = false ∨ ∃ p ∈ l, p.day_of_week = now.weekday ∧ p.is_in now = true := by
  induction l generalizing b with
  | nil => simp
  | cons p rest ih =>
    by_cases hc : p.day_of_week = now.weekday ∧ p.is_in now = true
    · simp only [List.foldl_cons, if_pos hc, ih]
      simp [hc]
    · simp only [List.foldl_cons, if_neg hc, ih, List.mem_cons]
      constructor
      · rintro (hb | ⟨q, hq, hcond⟩)
        · exact Or.inl hb
        · exact Or.inr ⟨q, Or.inr hq, hcond⟩
      · rintro (hb | ⟨q, rfl | hq, hcond⟩)
        · exact Or.inl hb
        · exact absurd hcond hc
        · exact Or.inr ⟨q, hq, hcond⟩

theorem out_of_working_hours_eq_false_iff (w : Workout) (now : Instant) :
    w.out_of_working_hours now = false ↔
      ∃ p ∈ w.workout_plan.periods,
        p.day_of_week = now.weekday ∧ p.is_in now = true := by
  unfold Workout.out_of_working_hours
  rw [out_of_working_hours_foldl]
  simp

/-- Complete case analysis of one decision call: out-of-window and
empty-available calls return no action and leave the state alone; otherwise
the call performs `_do_exercise_action` for some member of the first
non-empty tier. -/
theorem pick_action_for_cases (rng : Rng) (w : Workout) (now : Instant) :
    (w.out_of_working_hours now = true ∧ w.pick_action_for rng now = (w, none)) ∨
    (w.out_of_working_hours now = false ∧ w.availableList now = [] ∧
      w.pick_action_for rng now = (w, none)) ∨
    (w.out_of_working_hours now = false ∧ w.availableList now ≠ [] ∧
      ∃ e ∈ specFirstTier w now,
        w.pick_action_for rng now =
          ((w._do_exercise_action rng now e).1, some (w._do_exercise_action rng now e).2)) := by
  by_cases hO : w.out_of_working_hours now = true
  · exact Or.inl ⟨hO, by simp [Workout.pick_action_for, hO]⟩
  rw [Bool.not_eq_true] at hO
  right
  by_cases hA : w.availableList now = []
  · exact Or.inl ⟨hO, hA, by simp [Workout.pick_action_for, hO, hA]⟩
  right
  refine ⟨hO, hA, ?_⟩
  have hAlen : ¬ 0 = (w.availableList now).length := by
    intro h
    exact hA (List.length_eq_zero.mp h.symm)
  by_cases hU : w.unmetList now = []
  · by_cases hP : w.passedMaxList now = []
    · rcases hsh : rng.shuffleEx (w.availableList now) with _ | ⟨e, tl⟩
      · exfalso
        have hperm := rng.shuffleEx_perm (w.availableList now)
        rw [hsh] at hperm
        exact hA hperm.symm.eq_nil
      · refine ⟨e, ?_, ?_⟩
        · have he : e ∈ rng.shuffleEx (w.availableList now) := by
            rw [hsh]; exact List.mem_cons_self e tl
          have := (rng.shuffleEx_perm (w.availableList now)).subset he
          simpa [specFirstTier, hU, hP] using this
        · simp [Workout.pick_action_for, hO, hAlen, hU, hP, hsh]
    · rcases hsh : rng.shuffleEx (w.passedMaxList now) with _ | ⟨e, tl⟩
      · exfalso
        have hperm := rng.shuffleEx_perm (w.passedMaxList now)
        rw [hsh] at hperm
        exact hP hperm.symm.eq_nil
      · refine ⟨e, ?_, ?_⟩
        · have he : e ∈ rng.shuffleEx (w.passedMaxList now) := by
            rw [hsh]; exact List.mem_cons_self e tl
          have := (rng.shuffleEx_perm (w.passedMaxList now)).subset he
          simpa [specFirstTier, hU, hP] using this
        · have hPlen : 0 ≠ (w.passedMaxList now).length := by
            intro h
            exact hP (List.length_eq_zero.mp h.symm)
          simp [Workout.pick_action_for, hO, hAlen, hU, hPlen, hsh]
  · rcases hsh : rng.shuffleEx (w.unmetList now) with _ | ⟨e, tl⟩
    · exfalso
      have hperm := rng.shuffleEx_perm (w.unmetList now)
      rw [hsh] at hperm
      exact hU hperm.symm.eq_nil
    · refine ⟨e, ?_, ?_⟩
      · have he : e ∈ rng.shuffleEx (w.unmetList now) := by
          rw [hsh]; exact List.mem_cons_self e tl
        have := (rng.shuffleEx_perm (w.unmetList now)).subset he
        simpa [specFirstTier, hU] using this
      · have hUlen : 0 ≠ (w.unmetList now).length := by
          intro h
          exact hU (List.length_eq_zero.mp h.symm)
        simp [Workout.pick_action_for, hO, hAlen, hUlen, hsh]

/-- C1: with `now` in-window and a non-empty available set, a decision call
returns an action whose exercise lies in the first non-empty tier of the
cascade (goal-deficient, else stale, else all of available), for every
plan, history and random outcome. -/
theorem c1_first_nonempty_tier (rng : Rng) (w : Workout) (now : Instant)
    (hwin : w.out_of_working_hours now = false)
    (hav : w.availableList now ≠ []) :
    ∃ a : Action,
      (w.pick_action_for rng now).2 = some a ∧ a.exercise ∈ specFirstTier w now := by
  rcases pick_action_for_cases rng w now with ⟨h, _⟩ | ⟨_, h2, _⟩ | ⟨_, _, e, he, hres⟩
  · rw [hwin] at h; cases h
  · exact absurd h2 hav
  · refine ⟨(w._do_exercise_action rng now e).2, ?_, ?_⟩
    · rw [hres]
    · simpa [Workout._do_exercise_action] using he

/-- C1 witness: a fresh engine on the sample plan at an in-window instant
picks an action from the first non-empty tier. -/
theorem c1_witness :
    w0.out_of_working_hours now0 = false ∧ w0.availableList now0 ≠ [] ∧
    ∃ a : Action,
      (w0.pick_action_for rng0 now0).2 = some a ∧ a.exercise ∈ specFirstTier w0 now0 :=
  ⟨by decide, by decide, c1_first_nonempty_tier rng0 w0 now0 (by decide) (by decide)⟩

/-- C4: a decision call returns the absence value exactly when `now` is
out-of-window or no exercise passes the availability filter, and in that
case the engine state (in particular the action history) is unchanged. -/
theorem c4_none_semantics (rng : Rng) (w : Workout) (now : Instant) :
    ((w.pick_action_for rng now).2 = none ↔
      (w.out_of_working_hours now = true ∨ w.availableList now = [])) ∧
    ((w.pick_action_for rng now).2 = none → (w.pick_action_for rng now).1 = w) := by
  rcases pick_action_for_cases rng w now with ⟨h, hres⟩ | ⟨h, h2, hres⟩ | ⟨h, h2, e, _, hres⟩
  · rw [hres]
    exact ⟨⟨fun _ => Or.inl h, fun _ => rfl⟩, fun _ => rfl⟩
  · rw [hres]
    exact ⟨⟨fun _ => Or.inr h2, fun _ => rfl⟩, fun _ => rfl⟩
  · rw [hres]
    constructor
    · constructor
      · intro hcontr; cases hcontr
      · rintro (hc | hc)
        · rw [h] at hc; cases hc
        · exact absurd hc h2
    · intro hcontr; cases hcontr

/-- C4 witness: at an out-of-window instant the sample engine returns the
absence value and keeps its state. -/
theorem c4_witness :
    (w0.pick_action_for rng0 nowOut).2 = none ∧ (w0.pick_action_for rng0 nowOut).1 = w0 := by
  have h := c4_none_semantics rng0 w0 nowOut
  have hn : (w0.pick_action_for rng0 nowOut).2 = none := h.1.mpr (Or.inl (by decide))
  exact ⟨hn, h.2 hn⟩

/-- C5: every action a decision call returns carries timestamp `now`, was
appended at the end of the history before the call returned, and (when its
exercise's ranges are ordered) has reps and sets inside the exercise's
inclusive ranges. -/
theorem c5_action_postconditions (rng : Rng) (w : Workout) (now : Instant) (a : Action)
    (hres : (w.pick_action_for rng now).2 = some a)
    (hreps : a.exercise.minimum_reps ≤ a.exercise.maximum_reps)
    (hsets : a.exercise.minimum_sets ≤ a.exercise.maximum_sets) :
    a.time = now ∧
    a.exercise.minimum_reps ≤ a.reps ∧ a.reps ≤ a.exercise.maximum_reps ∧
    a.exercise.minimum_sets ≤ a.sets ∧ a.sets ≤ a.exercise.maximum_sets ∧
    (w.pick_action_for rng now).1.actions = w.actions ++ [a] := by
  rcases pick_action_for_cases rng w now with ⟨_, hr⟩ | ⟨_, _, hr⟩ | ⟨_, _, e, _, hr⟩
  · rw [hr] at hres; cases hres
  · rw [hr] at hres; cases hres
  · rw [hr] at hres
    have ha : a = (w._do_exercise_action rng now e).2 := by
      cases hres; rfl
    have hae : a.exercise = e := by rw [ha]; rfl
    subst ha
    rw [hae] at hreps hsets
    refine ⟨rfl, ?_, ?_, ?_, ?_, ?_⟩
    · exact rng.randint_le_left _ _ hreps
    · exact rng.randint_le_right _ _ hreps
    · exact rng.randint_le_left _ _ hsets
    · exact rng.randint_le_right _ _ hsets
    · rw [hr]; rfl

/-- C5 witness: the concrete action produced by the sample engine at `now0`
under the lower-bound random source satisfies all the postconditions. -/
theorem c5_witness :
    (w0.pick_action_for rng0 now0).2 = some a5 ∧
    (a5.time = now0 ∧
      a5.exercise.minimum_reps ≤ a5.reps ∧ a5.reps ≤ a5.exercise.maximum_reps ∧
      a5.exercise.minimum_sets ≤ a5.sets ∧ a5.sets ≤ a5.exercise.maximum_sets ∧
      (w0.pick_action_for rng0 now0).1.actions = w0.actions ++ [a5]) :=
  ⟨by decide,
    c5_action_postconditions rng0 w0 now0 a5 (by decide) (by decide) (by decide)⟩

/-- C8: `is_in` holds exactly on the inclusive window obtained by pure
offset arithmetic from the instant's midnight, and a decision call treats
`now` as in-window exactly when some plan period matching `now`'s weekday
contains it (returning no action when none does). -/
theorem c8_window_characterization (p : WorkoutPeriod) (w : Workout) (rng : Rng)
    (now : Instant) :
    (p.is_in now = true ↔
      now.midnight + p.start ≤ now.val ∧ now.val ≤ now.midnight + p.end_) ∧
    (w.out_of_working_hours now = false ↔
      ∃ q ∈ w.workout_plan.periods,
        q.day_of_week = now.weekday ∧ q.is_in now = true) ∧
    (w.out_of_working_hours now = true → (w.pick_action_for rng now).2 = none) := by
  refine ⟨?_, out_of_working_hours_eq_false_iff w now, ?_⟩
  · unfold WorkoutPeriod.is_in
    rw [decide_eq_true_eq]
    constructor
    · rintro ⟨h1, h2⟩
      exact ⟨by linarith, by linarith⟩
    · rintro ⟨h1, h2⟩
      exact ⟨by linarith, by linarith⟩
  · intro h
    simp [Workout.pick_action_for, h]

/-- C8 witness: the instant exactly at the sample window's end bound is
in-window, and an out-of-window instant yields no action. -/
theorem c8_witness :
    period0.is_in nowEnd = true ∧ (w0.pick_action_for rng0 nowOut).2 = none :=
  ⟨(c8_window_characterization period0 w0 rng0 nowEnd).1.mpr (by decide),
    (c8_window_characterization period0 w0 rng0 nowOut).2.2 (by decide)⟩

theorem mem_of_getLast?_eq (l : List Action) (a : Action) (h : l.getLast? = some a) :
    a ∈ l := by
  obtain ⟨hne, rfl⟩ := List.mem_getLast?_eq_getLast (Option.mem_def.mpr h)
  exact List.getLast_mem hne

theorem specFirstTier_subset (w : Workout) (now : Instant) :
    specFirstTier w now ⊆ w.availableList now := by
  unfold specFirstTier
  by_cases hU : w.unmetList now ≠ []
  · rw [if_pos hU]
    exact (List.filter_sublist _).subset
  · rw [if_neg hU]
    by_cases hP : w.passedMaxList now ≠ []
    · rw [if_pos hP]
      exact (List.filter_sublist _).subset
    · rw [if_neg hP]
      exact fun x hx => hx

theorem cooldownOK_append (l : List Action) (hok : cooldownOK l) (a : Action)
    (h : ∀ b ∈ l, b.exercise = a.exercise →
      a.exercise.minimum_timedelta_between ≤ a.time.val - b.time.val) :
    cooldownOK (l ++ [a]) := by
  intro e
  rw [List.filter_append]
  by_cases he : a.exercise = e
  · have hfa : List.filter (fun x => decide (x.exercise = e)) [a] = [a] := by
      simp [List.filter_cons, he]
    rw [hfa, List.chain'_append]
    refine ⟨hok e, List.chain'_singleton a, ?_⟩
    intro x hx y hy
    have hy2 : a = y := by simpa using hy
    subst hy2
    have hxmem : x ∈ List.filter (fun x => decide (x.exercise = e)) l :=
      mem_of_getLast?_eq _ _ (Option.mem_def.mp hx)
    rw [List.mem_filter, decide_eq_true_eq] at hxmem
    have := h x hxmem.1 (by rw [hxmem.2, he])
    rw [he] at this
    exact this
  · have hfa : List.filter (fun x => decide (x.exercise = e)) [a] = [] := by
      simp [List.filter_cons, he]
    rw [hfa, List.append_nil]
    exact hok e

/-- C3: on every engine state reachable from an empty history by decision
calls - any instants, any random outcomes - consecutive history actions of
one exercise are at least that exercise's `minimum_timedelta_between`
apart. -/
theorem c3_cooldown_invariant (w : Workout) (h : Reachable w) : cooldownOK w.actions := by
  induction h with
  | init plan => intro e; simp [cooldownOK]
  | step w rng now _ ih =>
    rcases pick_action_for_cases rng w now with ⟨_, hres⟩ | ⟨_, _, hres⟩ | ⟨_, _, e, he, hres⟩
    · rw [hres]; exact ih
    · rw [hres]; exact ih
    · rw [hres]
      show cooldownOK ((w._do_exercise_action rng now e).1.actions)
      have hacts : (w._do_exercise_action rng now e).1.actions =
          w.actions ++ [(w._do_exercise_action rng now e).2] := rfl
      rw [hacts]
      refine cooldownOK_append _ ih _ ?_
      intro b hb hbe
      have hae : (w._do_exercise_action rng now e).2.exercise = e := rfl
      have hat : (w._do_exercise_action rng now e).2.time = now := rfl
      rw [hae, hat]
      have heav : w.is_exercise_available now e = true := by
        have := specFirstTier_subset w now he
        unfold Workout.availableList at this
        rw [List.mem_filter] at this
        exact this.2
      rw [is_exercise_available_eq_true_iff] at heav
      exact heav b hb (by rw [← hae, hbe])

/-- C3 witness: the invariant holds on the state reached by one decision
call from the fresh sample engine. -/
theorem c3_witness :
    cooldownOK ((Workout.pick_action_for rng0
      { workout_plan := plan0, actions := [] } now0).1).actions :=
  c3_cooldown_invariant _
    (Reachable.step { workout_plan := plan0, actions := [] } rng0 now0
      (Reachable.init plan0))

theorem pairwise_time_le_getLast (l : List Action)
    (hp : List.Pairwise (fun a b => a.time.val ≤ b.time.val) l) :
    ∀ a ∈ l, ∀ b : Action, l.getLast? = some b → a.time.val ≤ b.time.val := by
  induction l with
  | nil => intro a ha; cases ha
  | cons x rest ih =>
    intro a ha b hb
    rcases List.pairwise_cons.mp hp with ⟨hx, hrest⟩
    cases rest with
    | nil =>
      have ha2 : a = x := by simpa using ha
      have hb2 : x = b := by simpa using hb
      rw [ha2, ← hb2]
    | cons y t =>
      rw [List.getLast?_cons_cons] at hb
      have hbmem : b ∈ y :: t := mem_of_getLast?_eq _ _ hb
      rcases List.mem_cons.mp ha with rfl | ha2
      · exact hx b hbmem
      · exact ih hrest a ha2 b hb

/-- C6: when the history actions of an exercise appear in chronological
order, `is_exercise_available` returns `false` exactly when a most recent
action of the exercise exists and lies strictly closer to `now` than the
exercise's `minimum_timedelta_between`; with no prior actions it returns
`true` regardless of `now`. -/
theorem c6_availability_characterization (w : Workout) (now : Instant) (e : Exercise)
    (hchron : List.Pairwise (fun a b => a.time.val ≤ b.time.val)
      (w.actions.filter (fun a => decide (a.exercise = e)))) :
    w.is_exercise_available now e = false ↔
      ∃ a : Action, lastActionFor w.actions e = some a ∧
        now.val - a.time.val < e.minimum_timedelta_between := by
  rw [← Bool.not_eq_true, is_exercise_available_eq_true_iff]
  push_neg
  constructor
  · rintro ⟨a, ha, hae, hlt⟩
    have hafilter : a ∈ w.actions.filter (fun x => decide (x.exercise = e)) := by
      rw [List.mem_filter, decide_eq_true_eq]
      exact ⟨ha, hae⟩
    have hne : w.actions.filter (fun x => decide (x.exercise = e)) ≠ [] := by
      intro hnil
      rw [hnil] at hafilter
      cases hafilter
    obtain ⟨b, hb⟩ := Option.isSome_iff_exists.mp (List.getLast?_isSome.mpr hne)
    refine ⟨b, hb, ?_⟩
    have hle := pairwise_time_le_getLast _ hchron a hafilter b hb
    calc now.val - b.time.val ≤ now.val - a.time.val := by linarith
      _ < e.minimum_timedelta_between := hlt
  · rintro ⟨a, ha, hlt⟩
    have hafilter : a ∈ w.actions.filter (fun x => decide (x.exercise = e)) :=
      mem_of_getLast?_eq _ _ ha
    rw [List.mem_filter, decide_eq_true_eq] at hafilter
    exact ⟨a, hafilter.1, hafilter.2, hlt⟩

/-- C6 witness: with a lone recorded action 8 hours old and a 16 hour
cooldown, the exercise is unavailable. -/
theorem c6_witness :
    List.Pairwise (fun a b : Action => a.time.val ≤ b.time.val)
      (w6.actions.filter (fun a => decide (a.exercise = ex1))) ∧
    w6.is_exercise_available now0 ex1 = false := by
  have hp : List.Pairwise (fun a b : Action => a.time.val ≤ b.time.val)
      (w6.actions.filter (fun a => decide (a.exercise = ex1))) := by
    simp [w6, act6]
  exact ⟨hp, (c6_availability_characterization w6 now0 ex1 hp).mpr
    ⟨act6, by decide, by decide⟩⟩

/-! Time-slot preservation of the day-randomization pass. -/

theorem zipWith_settime_map_time :
    ∀ (ts : List Instant) (l : List Action), l.length = ts.length →
      (List.zipWith (fun t a => { a with time := t }) ts l).map (fun a => a.time) = ts := by
  intro ts
  induction ts with
  | nil => intro l _; simp
  | cons t ts ih =>
    intro l hl
    cases l with
    | nil => cases hl
    | cons a l =>
      simp only [List.zipWith_cons_cons, List.map_cons]
      rw [ih l (by simpa using hl)]

theorem zipWith_settime_map_payload :
    ∀ (ts : List Instant) (l : List Action), l.length = ts.length →
      (List.zipWith (fun t a => { a with time := t }) ts l).map Action.payload =
        l.map Action.payload := by
  intro ts
  induction ts with
  | nil =>
    intro l hl
    have hl2 : l = [] := List.length_eq_zero.mp (by simpa using hl)
    subst hl2
    rfl
  | cons t ts ih =>
    intro l hl
    cases l with
    | nil => cases hl
    | cons a l =>
      simp only [List.zipWith_cons_cons, List.map_cons]
      rw [ih l (by simpa using hl)]
      rfl

theorem shuffle_but_keep_time_map_time (rng : Rng) (l : List Action) :
    (shuffle_but_keep_time rng.shuffleAct l).map (fun a => a.time) =
      l.map (fun a => a.time) := by
  unfold shuffle_but_keep_time
  exact zipWith_settime_map_time _ _
    (by rw [List.length_map]; exact (rng.shuffleAct_perm l).length_eq)

theorem shuffle_but_keep_time_payload_perm (rng : Rng) (l : List Action) :
    ((shuffle_but_keep_time rng.shuffleAct l).map Action.payload).Perm
      (l.map Action.payload) := by
  unfold shuffle_but_keep_time
  rw [zipWith_settime_map_payload _ _
    (by rw [List.length_map]; exact (rng.shuffleAct_perm l).length_eq)]
  exact (rng.shuffleAct_perm l).map Action.payload

theorem flatten_map_perm (rng : Rng) :
    ∀ runs : List (List Action),
      (((runs.map (shuffle_but_keep_time rng.shuffleAct)).flatten).map Action.payload).Perm
        ((runs.flatten).map Action.payload) := by
  intro runs
  induction runs with
  | nil => simp
  | cons r rs ih =>
    simp only [List.map_cons, List.flatten_cons, List.map_append]
    exact List.Perm.append (shuffle_but_keep_time_payload_perm rng r) ih

/-- The batching loop flushes, in order, batches of constant weekday whose
concatenation is the input, each passed through `shuffle_but_keep_time`. -/
theorem dayRandomizationLoop_decomposition (rng : Rng) :
    ∀ (rest : List Action) (d : Nat) (acc cur : List Action),
      (∀ a ∈ cur, a.time.weekday = d) →
      ∃ runs : List (List Action),
        dayRandomizationLoop rng.shuffleAct rest d acc cur =
          acc ++ (runs.map (shuffle_but_keep_time rng.shuffleAct)).flatten ∧
        runs.flatten = cur ++ rest ∧
        ∀ r ∈ runs, ∀ x ∈ r, ∀ y ∈ r, x.time.weekday = y.time.weekday := by
  intro rest
  induction rest with
  | nil =>
    intro d acc cur hcur
    by_cases hc : cur = []
    · subst hc
      exact ⟨[], by simp [dayRandomizationLoop], by simp, by simp⟩
    · have hlen : 0 ≠ cur.length := fun h => hc (List.length_eq_zero.mp h.symm)
      refine ⟨[cur], by simp [dayRandomizationLoop, hlen], by simp, ?_⟩
      intro r hr x hx y hy
      have hr2 : r = cur := by simpa using hr
      subst hr2
      rw [hcur x hx, hcur y hy]
  | cons a rest ih =>
    intro d acc cur hcur
    by_cases hd : a.time.weekday = d
    · obtain ⟨runs, h1, h2, h3⟩ := ih d acc (cur ++ [a]) (by
        intro x hx
        rcases List.mem_append.mp hx with hx2 | hx2
        · exact hcur x hx2
        · have : x = a := by simpa using hx2
          rw [this, hd])
      refine ⟨runs, ?_, ?_, h3⟩
      · rw [← h1]
        simp [dayRandomizationLoop, hd]
      · rw [h2]
        simp
    · obtain ⟨runs, h1, h2, h3⟩ :=
        ih a.time.weekday (acc ++ shuffle_but_keep_time rng.shuffleAct cur) [a] (by simp)
      refine ⟨cur :: runs, ?_, ?_, ?_⟩
      · rw [List.map_cons, List.flatten_cons, ← List.append_assoc, ← h1]
        simp [dayRandomizationLoop, hd]
      · rw [List.flatten_cons, h2]
        simp
      · intro r hr
        rcases List.mem_cons.mp hr with rfl | hr2
        · intro x hx y hy
          rw [hcur x hx, hcur y hy]
        · exact h3 r hr2

/-- C9 counterexample: under a reversing (hence valid) shuffle outcome, the
day-randomized output of two same-day actions is not a permutation of the
input action sequence - its first element keeps the first input timestamp
but carries the second input's exercise, reps and sets, so no individual
action kept its own original timestamp. -/
theorem c9_counterexample :
    generate_sample_week_with_day_randomization rngRev [actA, actB] =
      some [{ actB with time := actA.time }, { actA with time := actB.time }] ∧
    ¬ List.Perm [{ actB with time := actA.time }, { actA with time := actB.time }]
        [actA, actB] := by
  constructor
  · rfl
  · decide

/-- C9 amended: for a non-empty engine-produced history, the day-randomized
output is the in-order concatenation of constant-weekday batches of the
input, each passed through `shuffle_but_keep_time`: the position-wise
sequence of timestamps (and hence its multiset) is exactly preserved, and
the (exercise, reps, sets) payloads of the output are a permutation of the
input's payloads permuted only inside each batch - but an individual action
need not keep its own original timestamp, the times being reassigned to the
positions. -/
theorem c9_amended_day_randomization (rng : Rng) (actions : List Action)
    (hne : actions ≠ []) :
    ∃ (runs : List (List Action)) (out : List Action),
      generate_sample_week_with_day_randomization rng actions = some out ∧
      runs.flatten = actions ∧
      (∀ r ∈ runs, ∀ x ∈ r, ∀ y ∈ r, x.time.weekday = y.time.weekday) ∧
      out = (runs.map (shuffle_but_keep_time rng.shuffleAct)).flatten ∧
      out.map (fun a => a.time) = actions.map (fun a => a.time) ∧
      (out.map Action.payload).Perm (actions.map Action.payload) := by
  rcases hacts : actions with _ | ⟨a, rest⟩
  · exact absurd rfl (hacts ▸ hne)
  obtain ⟨runs, h1, h2, h3⟩ :=
    dayRandomizationLoop_decomposition rng (a :: rest) a.time.weekday [] [] (by simp)
  rw [List.nil_append] at h1
  rw [List.nil_append] at h2
  refine ⟨runs, (runs.map (shuffle_but_keep_time rng.shuffleAct)).flatten,
    by simp [generate_sample_week_with_day_randomization, h1], h2, h3, rfl, ?_, ?_⟩
  · rw [List.map_flatten, ← h2, List.map_flatten, List.map_map]
    have hfun : ((List.map fun a : Action => a.time) ∘ shuffle_but_keep_time rng.shuffleAct)
        = (List.map fun a : Action => a.time) := by
      funext r
      exact shuffle_but_keep_time_map_time rng r
    rw [hfun]
  · rw [← h2]
    exact flatten_map_perm rng runs

/-- C9 amended witness: the decomposition applied to the two-action sample
history under the reversing shuffle. -/
theorem c9_amended_witness :
    [actA, actB] ≠ ([] : List Action) ∧
    ∃ (runs : List (List Action)) (out : List Action),
      generate_sample_week_with_day_randomization rngRev [actA, actB] = some out ∧
      runs.flatten = [actA, actB] ∧
      (∀ r ∈ runs, ∀ x ∈ r, ∀ y ∈ r, x.time.weekday = y.time.weekday) ∧
      out = (runs.map (shuffle_but_keep_time rngRev.shuffleAct)).flatten ∧
      out.map (fun a => a.time) = [actA, actB].map (fun a => a.time) ∧
      (out.map Action.payload).Perm ([actA, actB].map Action.payload) :=
  ⟨by decide, c9_amended_day_randomization rngRev [actA, actB] (by decide)⟩

/-- C10: after `shuffle_but_keep_time` the action at each position carries
the time value that stood at that position before the call, so the
position-wise time sequence is exactly preserved while the payloads
(exercise, reps, sets) are a permutation of the original payloads; in the
concrete reversed two-action instance, the action of `actB` ends up bearing
`actA`'s timestamp rather than its own. -/
theorem c10_shuffle_time_slots (rng : Rng) (actions : List Action) :
    (shuffle_but_keep_time rng.shuffleAct actions).map (fun a => a.time) =
      actions.map (fun a => a.time) ∧
    ((shuffle_but_keep_time rng.shuffleAct actions).map Action.payload).Perm
      (actions.map Action.payload) ∧
    shuffle_but_keep_time rngRev.shuffleAct [actA, actB] =
      [{ actB with time := actA.time }, { actA with time := actB.time }] :=
  ⟨shuffle_but_keep_time_map_time rng actions,
    shuffle_but_keep_time_payload_perm rng actions, by decide⟩

end WD
